import Mathlib

/-!
# Verification of the Chicago-crimes neighborhood visualization core

Shallow embedding of the geometric processing pipeline of `script.js`:

* `processCrimeCounts` (script.js lines 156-176): per-neighborhood crime counting
  over a plain-object map, with JS truthiness and `hasOwnProperty` guards.
* `calculateCentroids` (script.js lines 214-227): one centroid per valid
  neighborhood, filtered with `isNaN` on both coordinates.
* `calculateKNN` (script.js lines 230-263): the k-nearest-neighbor edge list
  over the projected centroids, with the `exists` dedup check.
* the spatial join of `preprocess_data.py` is not among the sources (only its
  documentation is); it is modelled from the spec (§4.2) further below.

Modelling conventions:

* JS numbers used as planar coordinates are embedded exactly, as elements of
  an arbitrary linear ordered commutative ring (every IEEE double value that
  reaches this code is such an element); the `Infinity` placed on the
  self-distance is embedded as `⊤` of `WithTop _`.
* The source sorts by Euclidean distance `Math.sqrt(dx*dx + dy*dy)`; since
  `Real.sqrt` is strictly monotone on nonnegative reals, comparing square
  roots is equivalent to comparing the radicands, and we keep the squared
  distance `dist2` as the (computable) comparison key.
* `Array.prototype.sort` is stable (ES2019) and the comparator
  `(a, b) => a.dist - b.dist` looks only at the distance, so the sorted order
  is exactly the order by the lexicographic key (distance, original index);
  two distinct entries never tie on that key, so the sort result is the unique
  sorted permutation, which we obtain with `List.insertionSort`.
* JS objects indexed by strings are embedded as functions `String → Option α`
  (`none` = key absent); `hasOwnProperty` becomes `Option.isSome`.
* The `source`/`target` fields of a link hold centroid objects compared by
  identity (`===`); centroid objects are created one per array index, so
  object identity coincides with the index, and links store indices.
-/

namespace CrimeViz

/-! ## Data model: features, crimes -/

/-- A GeoJSON feature as seen by `script.js`: only the `PRI_NEIGH` property is
inspected by the core. `none` models an absent property; the empty string is
the falsy string. Geometry stays opaque (it is only passed to d3). -/
structure Feature where
  name : Option String
deriving DecidableEq, Repr

/-- A crime record; the core only reads its `PRI_NEIGH` property. -/
structure Crime where
  name : Option String
deriving DecidableEq, Repr

/-- JS truthiness of the `PRI_NEIGH` property value: absent (`undefined`) and
the empty string are falsy, every other string is truthy. -/
def truthy : Option String → Bool
  | none => false
  | some s => !(s = "")

/-- script.js lines 137-139: `features.filter(f => f.properties[PRI_NEIGH])`. -/
def validNeighborhoods (features : List Feature) : List Feature :=
  features.filter (fun f => truthy f.name)

/-- The identifiers of the valid neighborhoods, in input order (the property is
a non-empty string on every valid feature, extracted with a default that is
never used). -/
def validNames (features : List Feature) : List String :=
  (validNeighborhoods features).map (fun f => f.name.getD "")

/-! ## Region aggregation (`processCrimeCounts`, script.js lines 156-176) -/

/-- The `crimeCounts` plain object: a string-keyed map. -/
def Counts : Type := String → Option Nat

/-- The empty object `{}`. -/
def emptyCounts : Counts := fun _ => none

/-- JS property assignment `m[k] = v`. -/
def setCount (m : Counts) (k : String) (v : Nat) : Counts :=
  fun s => if s = k then some v else m s

/-- script.js lines 158-161: initialize every valid neighborhood's count to 0. -/
def initCounts (features : List Feature) : Counts :=
  (validNeighborhoods features).foldl (fun m f => setCount m (f.name.getD "") 0) emptyCounts

/-- script.js lines 164-173, body of the per-crime loop:
`if (name && counts.hasOwnProperty(name)) counts[name]++`. -/
def countStep (m : Counts) (c : Crime) : Counts :=
  let nm := c.name.getD ""
  if truthy c.name && (m nm).isSome then setCount m nm ((m nm).getD 0 + 1) else m

/-- script.js lines 156-176: initialize all valid regions to 0, then count
each crime into its region when the property is truthy and the key exists. -/
def processCrimeCounts (features : List Feature) (crimes : List Crime) : Counts :=
  crimes.foldl countStep (initCounts features)

/-- Whether a crime record lands in some valid region's count (its property is
present and names a valid region; valid names are never empty). -/
def isCounted (features : List Feature) (c : Crime) : Bool :=
  match c.name with
  | none => false
  | some nm => nm ∈ validNames features

/-! ## Centroid extraction (`calculateCentroids`, script.js lines 214-227) -/

/-- A JS IEEE-754 double as far as the centroid filter can distinguish one:
`NaN`, one of the infinities, or a finite value (embedded exactly). -/
inductive JSNum
  | nan
  | posInf
  | negInf
  | fin (q : ℚ)
deriving DecidableEq, Repr

/-- JS `isNaN` on a number. -/
def JSNum.isNaN : JSNum → Bool
  | .nan => true
  | _ => false

/-- JS `Number.isFinite`. -/
def JSNum.isFinite : JSNum → Bool
  | .fin _ => true
  | _ => false

/-- One element of `this.data.centroids`: the neighborhood name together with
the projected centroid coordinates returned by `pathGenerator.centroid`. -/
structure CentroidEntry where
  name : Option String
  coords : JSNum × JSNum
deriving DecidableEq, Repr

/-- script.js lines 214-227: map each valid neighborhood to its computed
centroid, then keep only those whose two coordinates are not `NaN`.
`centroidOf` stands for `pathGenerator.centroid`, the d3 computation with the
run's fixed projection, which is outside the core. -/
def calculateCentroids (features : List Feature) (centroidOf : Feature → JSNum × JSNum) :
    List CentroidEntry :=
  ((validNeighborhoods features).map (fun f => ⟨f.name, centroidOf f⟩)).filter
    (fun d => !(d.coords.1.isNaN) && !(d.coords.2.isNaN))

/-! ## KNN graph construction (`calculateKNN`, script.js lines 230-263) -/

/-- A centroid as consumed by `calculateKNN`: name plus projected planar
coordinates. By this point the coordinates are ordinary JS numbers; we embed
them as elements of an arbitrary linear ordered commutative ring `α`, which
covers both the exact rationals or reals (for the general theorems) and the
integers (for concrete evaluations). -/
structure Centroid (α : Type) where
  name : String
  x : α
  y : α
deriving DecidableEq, Repr

variable {α : Type} [LinearOrderedCommRing α]

instance : Inhabited (Centroid α) := ⟨⟨"", 0, 0⟩⟩

/-- Squared planar Euclidean distance. The source takes `Math.sqrt` of this;
the square root is strictly monotone, so every comparison made on distances is
equivalently made on `dist2` (see `sqrt_dist2_lt_iff`). -/
def dist2 (p q : Centroid α) : α :=
  (p.x - q.x) ^ 2 + (p.y - q.y) ^ 2

/-- script.js lines 238-242: the candidate array built for `center1` at outer
index `i`: one `{index: j, dist}` entry per centroid, the self entry carrying
`Infinity` (`⊤`). -/
def distEntries (cs : List (Centroid α)) (c1 : Centroid α) (i : Nat) :
    List (Nat × WithTop α) :=
  cs.enum.map (fun q => (q.1, if i = q.1 then (⊤ : WithTop α) else (dist2 c1 q.2 : α)))

/-- The order in which the stable JS sort with comparator
`(a, b) => a.dist - b.dist` leaves two candidate entries: by distance, with
exact distance ties left in original order, i.e. by ascending index. -/
def entryLe {γ : Type} [LinearOrder γ] (a b : Nat × γ) : Prop :=
  a.2 < b.2 ∨ (a.2 = b.2 ∧ a.1 ≤ b.1)

instance {γ : Type} [LinearOrder γ] : DecidableRel (entryLe (γ := γ)) := fun a b => by
  unfold entryLe; infer_instance

instance {γ : Type} [LinearOrder γ] : IsTotal (Nat × γ) entryLe := by
  constructor
  intro a b
  rcases lt_trichotomy a.2 b.2 with h | h | h
  · exact Or.inl (Or.inl h)
  · rcases Nat.le_total a.1 b.1 with h1 | h1
    · exact Or.inl (Or.inr ⟨h, h1⟩)
    · exact Or.inr (Or.inr ⟨h.symm, h1⟩)
  · exact Or.inr (Or.inl h)

instance {γ : Type} [LinearOrder γ] : IsTrans (Nat × γ) entryLe := by
  constructor
  rintro a b c (hab | ⟨hab, hab1⟩) (hbc | ⟨hbc, hbc1⟩)
  · exact Or.inl (hab.trans hbc)
  · exact Or.inl (hbc ▸ hab)
  · exact Or.inl (hab ▸ hbc)
  · exact Or.inr ⟨hab.trans hbc, hab1.trans hbc1⟩

instance {γ : Type} [LinearOrder γ] : IsAntisymm (Nat × γ) entryLe := by
  constructor
  rintro ⟨a1, a2⟩ ⟨b1, b2⟩ (hab | ⟨hab, hab1⟩) (hba | ⟨hba, hba1⟩)
  · exact absurd hba (lt_asymm hab)
  · exact absurd hab (hba ▸ lt_irrefl _)
  · exact absurd hba (hab ▸ lt_irrefl _)
  · simp only [Prod.mk.injEq]
    exact ⟨Nat.le_antisymm hab1 hba1, hab⟩

/-- script.js line 243: the sorted candidate array. The JS sort is stable and
its comparator looks only at `dist`, so the result is the unique permutation
sorted by the linear order `entryLe` (distance, then original index). -/
def sortedDistances (cs : List (Centroid α)) (c1 : Centroid α) (i : Nat) :
    List (Nat × WithTop α) :=
  List.insertionSort entryLe (distEntries cs c1 i)

/-- script.js lines 246-247: the indices selected as neighbors of the centroid
at index `i`: the first `min(k, distances.length)` sorted entries (`List.take`
truncates at the length, exactly like the loop bound `k < distances.length`). -/
def selectedIdx (cs : List (Centroid α)) (K : Nat) (c1 : Centroid α) (i : Nat) : List Nat :=
  ((sortedDistances cs c1 i).take K).map Prod.fst

/-- A link as pushed on `knnLinks`; `source`/`target` hold the centroid
objects, identified by their index in the centroid array. -/
structure Link where
  source : Nat
  target : Nat
deriving DecidableEq, Repr

/-- script.js lines 250-254: the duplicate check
`links.some(l => (l.source === c1 && l.target === n) || (l.source === n && l.target === c1))`. -/
def linkExists (links : List Link) (i j : Nat) : Bool :=
  links.any (fun l => (l.source = i && l.target = j) || (l.source = j && l.target = i))

/-- script.js lines 246-259: the inner loop over the selected neighbors of the
centroid at index `i`, pushing each missing unordered pair. -/
def addLinks (links : List Link) (i : Nat) : List Nat → List Link
  | [] => links
  | j :: t => addLinks (if linkExists links i j then links else links ++ [⟨i, j⟩]) i t

/-- The outer loop `centroids.forEach((center1, i) => ...)` of script.js
lines 236-260, accumulating links over the enumerated centroid list. -/
def knnFold (cs : List (Centroid α)) (K : Nat) (acc : List Link) :
    List (Nat × Centroid α) → List Link
  | [] => acc
  | q :: t => knnFold cs K (addLinks acc q.1 (selectedIdx cs K q.2 q.1)) t

/-- script.js lines 230-263: the full KNN edge-list construction. -/
def calculateKNN (cs : List (Centroid α)) (K : Nat) : List Link :=
  knnFold cs K [] cs.enum

/-- The centroid stored at index `i` (the default is never reached at the
indices the code uses). -/
def centroidAt (cs : List (Centroid α)) (i : Nat) : Centroid α :=
  cs.getD i default

/-- The neighbor-index list the code computes for the centroid at index `i`. -/
def selOf (cs : List (Centroid α)) (K : Nat) (i : Nat) : List Nat :=
  selectedIdx cs K (centroidAt cs i) i

/-- The candidate entries of all *other* centroids (the self entry removed). -/
def otherEntries (cs : List (Centroid α)) (c1 : Centroid α) (i : Nat) :
    List (Nat × WithTop α) :=
  (distEntries cs c1 i).filter (fun p => !(p.1 = i))

/-- Following the spec's words (§4.5): the indices of the `k` nearest *other*
centroids of the centroid at index `i` — distances to every other centroid,
sorted ascending with exact ties broken by input-order index, first `k` kept.
Used to compare the code's selection against the specified one. -/
def specNearestOthers (cs : List (Centroid α)) (K : Nat) (i : Nat) : List Nat :=
  ((List.insertionSort entryLe (otherEntries cs (centroidAt cs i) i)).take K).map Prod.fst

/-- Two links carry the same unordered pair of endpoints. -/
def samePair (l1 l2 : Link) : Prop :=
  (l1.source = l2.source ∧ l1.target = l2.target) ∨
    (l1.source = l2.target ∧ l1.target = l2.source)

instance (l1 l2 : Link) : Decidable (samePair l1 l2) := by
  unfold samePair; infer_instance

/-- Strict version of the candidate order: strictly smaller distance, or an
exact distance tie broken by strictly smaller input-order index. -/
def entryLt {γ : Type} [LinearOrder γ] (a b : Nat × γ) : Prop :=
  a.2 < b.2 ∨ (a.2 = b.2 ∧ a.1 < b.1)

/-! ## Spatial join (modelled from the spec)

The spatial join runs in `preprocess_data.py`, which is not among the sources
(the repository documentation describes it but its code is absent); the
definitions of this section are therefore modelled from the spec, §4.2. -/

/-- Modelled from the spec: a region polygon record as consumed by the spatial
join (§3, §6) — a region identifier plus its geometry. Only the identifier and
the outcome of the containment test matter to the join logic, so the geometry
stays an opaque payload inspected solely by the containment test. -/
structure Polygon (β : Type) where
  id : String
  rings : β
deriving DecidableEq, Repr

/-- Modelled from the spec: `assignRegions` (§4.2) on one point record —
project the point with the run's fixed projection `proj`, then test
containment against every valid polygon (identifier non-empty) in input
order, assigning the identifier of the first containing polygon and stopping;
a point contained by no valid polygon keeps no identifier. `contains pl q`
stands for the `pointInPolygon` test of §4.1 applied to the projected point. -/
def assignRegion {β π ξ : Type} (contains : Polygon β → ξ → Bool) (proj : π → ξ)
    (polys : List (Polygon β)) (p : π) : Option String :=
  ((polys.filter (fun pl => !(pl.id = ""))).find? (fun pl => contains pl (proj p))).map
    (fun pl => pl.id)

/-- The valid polygons of an input list: identifier non-empty, input order. -/
def validPolygons {β : Type} (polys : List (Polygon β)) : List (Polygon β) :=
  polys.filter (fun pl => !(pl.id = ""))

/-! ## Basic lemmas about the link accumulation -/

lemma linkExists_iff {links : List Link} {i j : Nat} :
    linkExists links i j = true ↔ ∃ l ∈ links, samePair l ⟨i, j⟩ := by
  simp [linkExists, samePair, List.any_eq_true]

lemma linkExists_comm (links : List Link) (i j : Nat) :
    linkExists links i j = linkExists links j i := by
  unfold linkExists
  congr 1
  funext l
  exact Bool.or_comm _ _

lemma linkExists_append_left {links s : List Link} {i j : Nat}
    (h : linkExists links i j = true) : linkExists (links ++ s) i j = true := by
  simp only [linkExists, List.any_append, Bool.or_eq_true] at h ⊢
  exact Or.inl h

/-- `addLinks` only ever appends, and every appended link has source `i` and a
target among the requested neighbors. -/
lemma addLinks_eq_append (links : List Link) (i : Nat) (ns : List Nat) :
    ∃ s, addLinks links i ns = links ++ s ∧ ∀ l ∈ s, l.source = i ∧ l.target ∈ ns := by
  induction ns generalizing links with
  | nil => exact ⟨[], by simp [addLinks]⟩
  | cons j t ih =>
    by_cases h : linkExists links i j = true
    · obtain ⟨s, hs, hm⟩ := ih links
      refine ⟨s, ?_, fun l hl => ⟨(hm l hl).1, List.mem_cons_of_mem _ (hm l hl).2⟩⟩
      simpa [addLinks, h] using hs
    · obtain ⟨s, hs, hm⟩ := ih (links ++ [⟨i, j⟩])
      refine ⟨⟨i, j⟩ :: s, ?_, ?_⟩
      · simp only [addLinks, if_neg h]
        rw [hs, List.append_assoc]
        rfl
      · rintro l hl
        rcases List.mem_cons.mp hl with rfl | hl
        · exact ⟨rfl, List.mem_cons_self _ _⟩
        · exact ⟨(hm l hl).1, List.mem_cons_of_mem _ (hm l hl).2⟩

lemma linkExists_addLinks_of (links : List Link) (i0 : Nat) (ns : List Nat) {i j : Nat}
    (h : linkExists links i j = true) : linkExists (addLinks links i0 ns) i j = true := by
  obtain ⟨s, hs, -⟩ := addLinks_eq_append links i0 ns
  rw [hs]
  exact linkExists_append_left h

/-- After the inner loop, every requested neighbor pair is present. -/
lemma linkExists_addLinks_self (links : List Link) (i : Nat) (ns : List Nat) :
    ∀ j ∈ ns, linkExists (addLinks links i ns) i j = true := by
  induction ns generalizing links with
  | nil => intro j hj; cases hj
  | cons j t ih =>
    intro j0 hj0
    rcases List.mem_cons.mp hj0 with rfl | hj0
    · show linkExists (addLinks (if linkExists links i j0 then links
        else links ++ [⟨i, j0⟩]) i t) i j0 = true
      apply linkExists_addLinks_of
      by_cases h : linkExists links i j0 = true
      · rw [if_pos h]
        exact h
      · rw [if_neg h]
        simp [linkExists, List.any_append]
    · exact ih _ j0 hj0

lemma mem_addLinks {links : List Link} {i : Nat} {ns : List Nat} {l : Link}
    (h : l ∈ addLinks links i ns) : l ∈ links ∨ (l.source = i ∧ l.target ∈ ns) := by
  obtain ⟨s, hs, hm⟩ := addLinks_eq_append links i ns
  rw [hs] at h
  rcases List.mem_append.mp h with h | h
  · exact Or.inl h
  · exact Or.inr (hm l h)

/-! ## Lemmas about the outer fold -/

lemma mem_knnFold {cs : List (Centroid α)} {K : Nat} {Q : List (Nat × Centroid α)}
    {acc : List Link} {l : Link} (h : l ∈ knnFold cs K acc Q) :
    l ∈ acc ∨ ∃ q ∈ Q, l.source = q.1 ∧ l.target ∈ selectedIdx cs K q.2 q.1 := by
  induction Q generalizing acc with
  | nil => exact Or.inl h
  | cons q t ih =>
    rcases ih h with h1 | ⟨q1, hq1, hsrc, htgt⟩
    · rcases mem_addLinks h1 with h2 | h2
      · exact Or.inl h2
      · exact Or.inr ⟨q, List.mem_cons_self _ _, h2⟩
    · exact Or.inr ⟨q1, List.mem_cons_of_mem _ hq1, hsrc, htgt⟩

lemma linkExists_knnFold_of {cs : List (Centroid α)} {K : Nat} {Q : List (Nat × Centroid α)}
    {acc : List Link} {i j : Nat} (h : linkExists acc i j = true) :
    linkExists (knnFold cs K acc Q) i j = true := by
  induction Q generalizing acc with
  | nil => exact h
  | cons q t ih => exact ih (linkExists_addLinks_of _ _ _ h)

lemma linkExists_knnFold_mem {cs : List (Centroid α)} {K : Nat} {Q : List (Nat × Centroid α)}
    {acc : List Link} {q : Nat × Centroid α} (hq : q ∈ Q) {j : Nat}
    (hj : j ∈ selectedIdx cs K q.2 q.1) :
    linkExists (knnFold cs K acc Q) q.1 j = true := by
  induction Q generalizing acc with
  | nil => cases hq
  | cons q0 t ih =>
    rcases List.mem_cons.mp hq with rfl | hq
    · show linkExists
        (knnFold cs K (addLinks acc q.1 (selectedIdx cs K q.2 q.1)) t) q.1 j = true
      exact linkExists_knnFold_of (linkExists_addLinks_self _ _ _ j hj)
    · show linkExists
        (knnFold cs K (addLinks acc q0.1 (selectedIdx cs K q0.2 q0.1)) t) q.1 j = true
      exact ih hq

/-! ## The candidate list and its sort -/

lemma distEntries_length (cs : List (Centroid α)) (c1 : Centroid α) (i : Nat) :
    (distEntries cs c1 i).length = cs.length := by
  simp [distEntries]

lemma snd_ne_top_of_mem_distEntries {cs : List (Centroid α)} {c1 : Centroid α} {i : Nat}
    {p : Nat × WithTop α} (hp : p ∈ distEntries cs c1 i) (hne : p.1 ≠ i) : p.2 ≠ ⊤ := by
  simp only [distEntries, List.mem_map] at hp
  obtain ⟨q, hq, rfl⟩ := hp
  simp only at hne ⊢
  rw [if_neg (fun h => hne h.symm)]
  exact WithTop.coe_ne_top

lemma mem_otherEntries_iff {cs : List (Centroid α)} {c1 : Centroid α} {i : Nat}
    {p : Nat × WithTop α} :
    p ∈ otherEntries cs c1 i ↔ p ∈ distEntries cs c1 i ∧ p.1 ≠ i := by
  simp [otherEntries, List.mem_filter]

/-- Exactly one candidate entry has index `i`: the one carrying `Infinity`. -/
lemma distEntries_filter_self {cs : List (Centroid α)} {c1 : Centroid α} {i : Nat}
    (h : i < cs.length) :
    (distEntries cs c1 i).filter (fun p => p.1 = i) = [(i, (⊤ : WithTop α))] := by
  have hmem : ∀ p ∈ (distEntries cs c1 i).filter (fun p => p.1 = i),
      p = (i, (⊤ : WithTop α)) := by
    intro p hp
    obtain ⟨hp1, hp2⟩ := List.mem_filter.mp hp
    simp only [decide_eq_true_eq] at hp2
    simp only [distEntries, List.mem_map] at hp1
    obtain ⟨q, hq, rfl⟩ := hp1
    simp only at hp2
    subst hp2
    rw [if_pos rfl]
  have hlen : ((distEntries cs c1 i).filter (fun p => p.1 = i)).length = 1 := by
    rw [← List.countP_eq_length_filter]
    unfold distEntries
    rw [List.countP_map]
    have : (fun q : Nat × Centroid α => decide (q.1 = i)) =
        ((fun n : Nat => decide (n = i)) ∘ Prod.fst) := rfl
    calc (cs.enum.countP _) = cs.enum.countP ((fun n : Nat => decide (n = i)) ∘ Prod.fst) :=
          rfl
      _ = (cs.enum.map Prod.fst).countP (fun n : Nat => decide (n = i)) :=
          (List.countP_map _ _ _).symm
      _ = (List.range cs.length).countP (fun n : Nat => decide (n = i)) := by
          rw [List.enum_map_fst]
      _ = (List.range cs.length).count i := by
          rw [List.count_eq_countP]
          apply List.countP_congr
          intro n _
          simp [Bool.beq_eq_decide_eq]
      _ = 1 := List.count_eq_one_of_mem (List.nodup_range _) (List.mem_range.mpr h)
  obtain ⟨a, ha⟩ := List.length_eq_one.mp hlen
  rw [ha]
  rw [hmem a (ha ▸ List.mem_singleton_self a)]

/-- The sorted candidate list splits into the sorted entries of the other
centroids followed by the self entry (which carries `Infinity` and therefore
sorts last). -/
lemma sortedDistances_split {cs : List (Centroid α)} {c1 : Centroid α} {i : Nat}
    (h : i < cs.length) :
    sortedDistances cs c1 i =
      List.insertionSort entryLe (otherEntries cs c1 i) ++ [(i, (⊤ : WithTop α))] := by
  apply List.eq_of_perm_of_sorted (r := entryLe)
  · have h1 : List.Perm (distEntries cs c1 i)
        ((i, (⊤ : WithTop α)) :: otherEntries cs c1 i) := by
      have hp := List.filter_append_perm (fun p => decide (p.1 = i)) (distEntries cs c1 i)
      rw [distEntries_filter_self h] at hp
      exact hp.symm
    have h2 : List.Perm (sortedDistances cs c1 i) (distEntries cs c1 i) :=
      List.perm_insertionSort _ _
    have h3 : List.Perm ((i, (⊤ : WithTop α)) :: otherEntries cs c1 i)
        (otherEntries cs c1 i ++ [(i, (⊤ : WithTop α))]) :=
      @List.perm_append_comm _ [(i, (⊤ : WithTop α))] (otherEntries cs c1 i)
    have h4 : List.Perm (otherEntries cs c1 i ++ [(i, (⊤ : WithTop α))])
        (List.insertionSort entryLe (otherEntries cs c1 i) ++ [(i, (⊤ : WithTop α))]) :=
      ((List.perm_insertionSort entryLe _).symm).append_right _
    exact h2.trans (h1.trans (h3.trans h4))
  · exact List.sorted_insertionSort _ _
  · refine List.pairwise_append.mpr ⟨List.sorted_insertionSort _ _,
      List.pairwise_singleton _ _, ?_⟩
    intro a ha b hb
    rw [List.mem_singleton] at hb
    subst hb
    have ha1 : a ∈ otherEntries cs c1 i := (List.perm_insertionSort entryLe _).subset ha
    obtain ⟨hmem, hne⟩ := mem_otherEntries_iff.mp ha1
    exact Or.inl (WithTop.lt_top_iff_ne_top.mpr (snd_ne_top_of_mem_distEntries hmem hne))

lemma length_otherEntries {cs : List (Centroid α)} {c1 : Centroid α} {i : Nat}
    (h : i < cs.length) : (otherEntries cs c1 i).length = cs.length - 1 := by
  have hp := (List.filter_append_perm (fun p => decide (p.1 = i))
    (distEntries cs c1 i)).length_eq
  rw [List.length_append, distEntries_filter_self h, distEntries_length] at hp
  have : ((distEntries cs c1 i).filter (fun p => !(decide (p.1 = i)))).length =
      (otherEntries cs c1 i).length := rfl
  simp only [List.length_singleton] at hp
  omega

/-- When there are at least `k+1` centroids, the code's selection for centroid
`i` coincides with the `k` nearest *other* centroids: the self entry sorts
past position `k` and is never picked. -/
lemma selOf_eq_specNearestOthers {cs : List (Centroid α)} {K i : Nat} (h : i < cs.length)
    (hK : K + 1 ≤ cs.length) : selOf cs K i = specNearestOthers cs K i := by
  unfold selOf selectedIdx specNearestOthers
  rw [sortedDistances_split h, List.take_append_of_le_length]
  rw [(List.perm_insertionSort _ _).length_eq, length_otherEntries h]
  omega

/-! ## Soundness and completeness of the edge list -/

lemma mem_enum_centroidAt {cs : List (Centroid α)} {q : Nat × Centroid α}
    (h : q ∈ cs.enum) : q.1 < cs.length ∧ q.2 = centroidAt cs q.1 := by
  rw [List.mem_enum_iff_getElem?] at h
  obtain ⟨hlt, hget⟩ := List.getElem?_eq_some_iff.mp h
  refine ⟨hlt, ?_⟩
  unfold centroidAt
  rw [List.getD_eq_getElem?_getD, h]
  rfl

lemma self_mem_enum {cs : List (Centroid α)} {i : Nat} (h : i < cs.length) :
    (i, centroidAt cs i) ∈ cs.enum := by
  rw [List.mem_enum_iff_getElem?]
  unfold centroidAt
  rw [List.getD_eq_getElem?_getD, List.getElem?_eq_getElem h]
  rfl

/-- Every link the code emits goes from a real centroid index to one of the
indices the code selected for it. -/
lemma knn_sound {cs : List (Centroid α)} {K : Nat} {l : Link}
    (h : l ∈ calculateKNN cs K) :
    l.source < cs.length ∧ l.target ∈ selOf cs K l.source := by
  rcases mem_knnFold h with h1 | ⟨q, hq, hsrc, htgt⟩
  · cases h1
  · obtain ⟨hlt, hcent⟩ := mem_enum_centroidAt hq
    constructor
    · rw [hsrc]
      exact hlt
    · rw [hsrc]
      unfold selOf
      rw [← hcent]
      exact htgt

/-- Every selected neighbor pair is present in the final edge list. -/
lemma knn_complete {cs : List (Centroid α)} {K i j : Nat} (hi : i < cs.length)
    (hj : j ∈ selOf cs K i) : linkExists (calculateKNN cs K) i j = true :=
  linkExists_knnFold_mem (q := (i, centroidAt cs i)) (self_mem_enum hi) hj

/-! ## Order and distinctness of the sorted candidates -/

lemma distEntries_map_fst (cs : List (Centroid α)) (c1 : Centroid α) (i : Nat) :
    (distEntries cs c1 i).map Prod.fst = List.range cs.length := by
  unfold distEntries
  rw [List.map_map]
  exact List.enum_map_fst cs

lemma sortedDistances_fst_nodup (cs : List (Centroid α)) (c1 : Centroid α) (i : Nat) :
    ((sortedDistances cs c1 i).map Prod.fst).Nodup := by
  have hperm : List.Perm ((sortedDistances cs c1 i).map Prod.fst)
      ((distEntries cs c1 i).map Prod.fst) :=
    (List.perm_insertionSort entryLe _).map _
  rw [hperm.nodup_iff, distEntries_map_fst]
  exact List.nodup_range _

/-- The code's sorted candidate list is strictly ascending in the
(distance, input-order index) lexicographic order. -/
lemma sortedDistances_pairwise_lt (cs : List (Centroid α)) (c1 : Centroid α) (i : Nat) :
    (sortedDistances cs c1 i).Pairwise entryLt := by
  have hle : (sortedDistances cs c1 i).Pairwise entryLe :=
    List.sorted_insertionSort entryLe _
  have hne : (sortedDistances cs c1 i).Pairwise (fun a b => a.1 ≠ b.1) :=
    (List.pairwise_map).mp (sortedDistances_fst_nodup cs c1 i)
  refine (hle.and hne).imp ?_
  rintro a b ⟨hab | ⟨he, hle1⟩, hne1⟩
  · exact Or.inl hab
  · exact Or.inr ⟨he, lt_of_le_of_ne hle1 hne1⟩

/-! ## The dedup invariant -/

lemma addLinks_pairwise {links : List Link} {i : Nat} {ns : List Nat}
    (h : links.Pairwise (fun l1 l2 => ¬ samePair l1 l2)) :
    (addLinks links i ns).Pairwise (fun l1 l2 => ¬ samePair l1 l2) := by
  induction ns generalizing links with
  | nil => exact h
  | cons j t ih =>
    show (addLinks (if linkExists links i j then links else links ++ [⟨i, j⟩])
      i t).Pairwise _
    by_cases hex : linkExists links i j = true
    · rw [if_pos hex]
      exact ih h
    · rw [if_neg hex]
      apply ih
      rw [List.pairwise_append]
      refine ⟨h, List.pairwise_singleton _ _, ?_⟩
      intro a ha b hb
      rw [List.mem_singleton] at hb
      subst hb
      intro hsp
      exact hex (linkExists_iff.mpr ⟨a, ha, hsp⟩)

lemma knnFold_pairwise {cs : List (Centroid α)} {K : Nat} {Q : List (Nat × Centroid α)}
    {acc : List Link} (h : acc.Pairwise (fun l1 l2 => ¬ samePair l1 l2)) :
    (knnFold cs K acc Q).Pairwise (fun l1 l2 => ¬ samePair l1 l2) := by
  induction Q generalizing acc with
  | nil => exact h
  | cons q t ih => exact ih (addLinks_pairwise h)

/-- The duplicate check works on every input: no two emitted edges reference
the same unordered pair of centroids. -/
theorem calculateKNN_pairwise_distinct (cs : List (Centroid α)) (K : Nat) :
    (calculateKNN cs K).Pairwise (fun l1 l2 => ¬ samePair l1 l2) :=
  knnFold_pairwise List.Pairwise.nil

/-! ## Nonemptiness of the selection -/

lemma selOf_ne_nil {cs : List (Centroid α)} {K i : Nat} (hK : 1 ≤ K)
    (hcs : cs ≠ []) : selOf cs K i ≠ [] := by
  unfold selOf selectedIdx
  intro hcon
  rw [List.map_eq_nil_iff] at hcon
  rcases List.take_eq_nil_iff.mp hcon with h1 | h1
  · omega
  · have hlen := (List.perm_insertionSort entryLe
      (distEntries cs (centroidAt cs i) i)).length_eq
    rw [show List.insertionSort entryLe (distEntries cs (centroidAt cs i) i) =
      sortedDistances cs (centroidAt cs i) i from rfl, h1, distEntries_length] at hlen
    exact hcs (List.length_eq_zero.mp hlen.symm)

lemma samePair_swap {l : Link} {i j : Nat} (h : samePair l ⟨i, j⟩) :
    samePair l ⟨j, i⟩ :=
  Or.symm h

/-! ## First-match lemma for the spatial join -/

lemma find?_eq_some_split {β : Type} {p : β → Bool} {l : List β} {a : β}
    (h : l.find? p = some a) :
    ∃ l1 l2, l = l1 ++ a :: l2 ∧ p a = true ∧ ∀ b ∈ l1, p b = false := by
  induction l with
  | nil => cases h
  | cons x t ih =>
    by_cases hx : p x = true
    · rw [List.find?_cons_of_pos _ hx] at h
      obtain rfl := Option.some.inj h
      exact ⟨[], t, rfl, hx, by intro b hb; cases hb⟩
    · rw [List.find?_cons_of_neg _ (by simpa using hx)] at h
      obtain ⟨l1, l2, heq, hpa, hl1⟩ := ih h
      refine ⟨x :: l1, l2, by rw [heq]; rfl, hpa, ?_⟩
      intro b hb
      rcases List.mem_cons.mp hb with rfl | hb
      · simpa using hx
      · exact hl1 b hb

/-! ## Characterization of the crime counts -/

lemma validNames_ne_empty {features : List Feature} {nm : String}
    (h : nm ∈ validNames features) : nm ≠ "" := by
  unfold validNames at h
  rw [List.mem_map] at h
  obtain ⟨f, hf, rfl⟩ := h
  obtain ⟨-, hf2⟩ := List.mem_filter.mp hf
  revert hf2
  cases f.name with
  | none => intro hf2; simp [truthy] at hf2
  | some s => intro hf2; simpa [truthy] using hf2

lemma foldl_setCount_zero (fs : List Feature) (m : Counts) (nm : String) :
    (fs.foldl (fun m f => setCount m (f.name.getD "") 0) m) nm =
      if nm ∈ fs.map (fun f => f.name.getD "") then some 0 else m nm := by
  induction fs generalizing m with
  | nil => simp
  | cons f t ih =>
    rw [List.foldl_cons, ih]
    simp only [List.map_cons, List.mem_cons]
    by_cases h1 : nm ∈ t.map (fun f => f.name.getD "")
    · rw [if_pos h1, if_pos (Or.inr h1)]
    · by_cases h2 : nm = f.name.getD ""
      · rw [if_neg h1, if_pos (Or.inl h2)]
        simp only [setCount]
        rw [if_pos h2]
      · rw [if_neg h1, if_neg (by rintro (h | h); exacts [h2 h, h1 h])]
        simp only [setCount]
        rw [if_neg h2]

lemma initCounts_char (features : List Feature) (nm : String) :
    initCounts features nm = if nm ∈ validNames features then some 0 else none := by
  unfold initCounts validNames
  exact foldl_setCount_zero _ _ _

lemma initCounts_isSome (features : List Feature) (s : String) :
    ((initCounts features) s).isSome = true ↔ s ∈ validNames features := by
  rw [initCounts_char]
  by_cases h : s ∈ validNames features
  · simp [h]
  · simp [h]

/-- Running the per-crime loop on any map `m` whose key set is exactly `V`
(all keys non-empty) adds, to each present key, the number of crimes naming
that key; everything else is untouched. -/
lemma foldl_countStep_char (crimes : List Crime) (m : Counts) (V : List String)
    (hdom : ∀ s, (m s).isSome = true ↔ s ∈ V) (hV : ∀ s ∈ V, s ≠ "") (nm : String) :
    (crimes.foldl countStep m) nm =
      (m nm).map (fun v => v + crimes.countP (fun c => c.name = some nm)) := by
  induction crimes generalizing m with
  | nil => cases h : m nm <;> simp [h]
  | cons c rest ih =>
    rw [List.foldl_cons, List.countP_cons]
    by_cases hc : (truthy c.name && (m (c.name.getD "")).isSome) = true
    · have hc2 := hc
      rw [Bool.and_eq_true] at hc2
      have htr : truthy c.name = true := hc2.1
      obtain ⟨s, hs⟩ : ∃ s, c.name = some s := by
        cases hn : c.name
        · rw [hn] at htr; cases htr
        · exact ⟨_, rfl⟩
      have hkey : c.name.getD "" = s := by rw [hs]; rfl
      have hsome : (m s).isSome = true := by
        rw [← hkey]; exact hc2.2
      have hsV : s ∈ V := (hdom s).mp hsome
      have hc' : (truthy c.name && (m s).isSome) = true := by rw [← hkey]; exact hc
      have hstep : countStep m c = setCount m s ((m s).getD 0 + 1) := by
        simp only [countStep, hkey]
        rw [if_pos hc']
      have hdom2 : ∀ t2, ((setCount m s ((m s).getD 0 + 1)) t2).isSome = true ↔ t2 ∈ V := by
        intro t2
        simp only [setCount]
        by_cases ht : t2 = s
        · rw [if_pos ht, ht]
          simpa using hsV
        · rw [if_neg ht]
          exact hdom t2
      rw [hstep, ih _ hdom2]
      obtain ⟨v, hv⟩ := Option.isSome_iff_exists.mp hsome
      by_cases hnm : nm = s
      · subst hnm
        have hite : (if ((fun c : Crime => (c.name = some nm : Bool)) c) = true
            then 1 else 0) = 1 := by
          rw [if_pos]
          simp [hs]
        simp only [setCount, if_pos rfl, hv, Option.getD_some, Option.map_some']
        rw [hite]
        exact congrArg some (by simp only []; omega)
      · have hite : (if ((fun c : Crime => (c.name = some nm : Bool)) c) = true
            then 1 else 0) = 0 := by
          rw [if_neg]
          simp only [decide_eq_true_eq, hs]
          intro hcon
          exact hnm (Option.some.inj hcon).symm
        simp only [setCount, if_neg hnm, hite, Nat.add_zero]
    · have hstep : countStep m c = m := by
        simp only [countStep]
        rw [if_neg hc]
      rw [hstep, ih _ hdom]
      by_cases hcn : c.name = some nm
      · have hnone : m nm = none := by
          cases hmn : m nm with
          | none => rfl
          | some v =>
            exfalso
            have h1 : (m nm).isSome = true := by rw [hmn]; rfl
            have h3 : nm ≠ "" := hV nm ((hdom nm).mp h1)
            have htr : truthy c.name = true := by
              rw [hcn]
              simpa [truthy] using h3
            have hkey : c.name.getD "" = nm := by rw [hcn]; rfl
            apply hc
            rw [hkey, htr, h1]
            rfl
        rw [hnone]
        rfl
      · have hite : (if ((fun c : Crime => (c.name = some nm : Bool)) c) = true
            then 1 else 0) = 0 := by
          rw [if_neg]
          simpa using hcn
        rw [hite, Nat.add_zero]

/-- Full characterization of `processCrimeCounts`: valid region identifiers
are present and carry exactly the number of crimes naming them; all other keys
are absent. -/
lemma processCrimeCounts_char (features : List Feature) (crimes : List Crime)
    (nm : String) :
    processCrimeCounts features crimes nm =
      if nm ∈ validNames features then
        some (crimes.countP (fun c => c.name = some nm))
      else none := by
  unfold processCrimeCounts
  rw [foldl_countStep_char crimes (initCounts features) (validNames features)
    (initCounts_isSome features) (fun s hs => validNames_ne_empty hs) nm]
  rw [initCounts_char]
  by_cases h : nm ∈ validNames features
  · rw [if_pos h, if_pos h]
    simp
  · rw [if_neg h, if_neg h]
    rfl

/-! ## Summing the counts -/

lemma countP_or_of_disjoint {β : Type} (p q : β → Bool) (l : List β)
    (hdis : ∀ x ∈ l, ¬(p x = true ∧ q x = true)) :
    l.countP (fun x => p x || q x) = l.countP p + l.countP q := by
  induction l with
  | nil => rfl
  | cons x t ih =>
    have iht := ih (fun y hy => hdis y (List.mem_cons_of_mem _ hy))
    rw [List.countP_cons, List.countP_cons, List.countP_cons, iht]
    by_cases hp : p x = true <;> by_cases hq : q x = true
    · exact absurd ⟨hp, hq⟩ (hdis x (List.mem_cons_self _ _))
    all_goals simp [hp, hq] <;> omega

/-- Summing the per-name crime counts over a duplicate-free name list equals
the number of crimes whose name is in the list. -/
lemma sum_countP_names (N : List String) (crimes : List Crime) (hN : N.Nodup) :
    (N.map (fun nm => crimes.countP (fun c => c.name = some nm))).sum =
      crimes.countP (fun c =>
        match c.name with
        | none => false
        | some s => s ∈ N) := by
  induction N with
  | nil =>
    rw [List.map_nil, List.sum_nil]
    symm
    rw [List.countP_eq_zero]
    intro c _
    cases c.name <;> simp
  | cons nm t ih =>
    rw [List.map_cons, List.sum_cons, ih (List.Nodup.of_cons hN)]
    have hnm : nm ∉ t := (List.nodup_cons.mp hN).1
    have hpt : ∀ c : Crime,
        (match c.name with
          | none => false
          | some s => (s ∈ nm :: t : Bool)) =
        ((c.name = some nm : Bool) ||
          (match c.name with
            | none => false
            | some s => (s ∈ t : Bool))) := by
      intro c
      cases hcn : c.name with
      | none => simp
      | some s =>
        simp only [List.mem_cons, Option.some.injEq]
        by_cases h1 : s = nm
        · subst h1
          simp
        · simp [h1, eq_comm]
    have hfun : (fun c : Crime =>
        match c.name with
        | none => false
        | some s => (s ∈ nm :: t : Bool)) =
        (fun c : Crime => (c.name = some nm : Bool) ||
          (match c.name with
            | none => false
            | some s => (s ∈ t : Bool))) := funext hpt
    have hdis : ∀ c ∈ crimes, ¬(((c.name = some nm : Bool)) = true ∧
        ((match c.name with
          | none => false
          | some s => (s ∈ t : Bool)) = true)) := by
      intro c _ hcon
      obtain ⟨h1, h2⟩ := hcon
      rw [decide_eq_true_eq] at h1
      rw [h1] at h2
      simp only [decide_eq_true_eq] at h2
      exact hnm h2
    rw [hfun, countP_or_of_disjoint _ _ _ hdis]

lemma dist2_nonneg (p q : Centroid α) : 0 ≤ dist2 p q :=
  add_nonneg (sq_nonneg _) (sq_nonneg _)

/-- Comparing the Euclidean distances the source computes (`Math.sqrt` of the
sum of squares) is the same as comparing the squared distances used here as
sort keys: the square root is strictly monotone on nonnegative reals. -/
lemma sqrt_dist2_lt_iff (p q r s : Centroid ℝ) :
    Real.sqrt (dist2 p q) < Real.sqrt (dist2 r s) ↔ dist2 p q < dist2 r s :=
  Real.sqrt_lt_sqrt_iff (dist2_nonneg p q)

/-! ## The claims -/

/-- C6: the region-count mapping has an entry for every valid region
identifier and for no other key; a valid region's entry equals the number of
crime records whose region property names it (so a region with no events is
present with count 0, never absent), and crimes with an absent or unknown
region property contribute to no entry and raise no error. -/
theorem processCrimeCounts_characterization (features : List Feature)
    (crimes : List Crime) (nm : String) :
    processCrimeCounts features crimes nm =
      if nm ∈ validNames features then
        some (crimes.countP (fun c => c.name = some nm))
      else none :=
  processCrimeCounts_char features crimes nm

/-- C7: summing the region counts over all valid regions and adding the number
of crime records not counted into any valid region gives back the total number
of input crime records. -/
theorem crimeCounts_conservation (features : List Feature) (crimes : List Crime) :
    (((validNames features).dedup).map
        (fun nm => (processCrimeCounts features crimes nm).getD 0)).sum
      + crimes.countP (fun c => !(isCounted features c)) = crimes.length := by
  have h1 : ((validNames features).dedup).map
      (fun nm => (processCrimeCounts features crimes nm).getD 0) =
      ((validNames features).dedup).map
      (fun nm => crimes.countP (fun c => c.name = some nm)) := by
    apply List.map_congr_left
    intro nm hnm
    rw [processCrimeCounts_char, if_pos (List.mem_dedup.mp hnm)]
    rfl
  rw [h1, sum_countP_names _ _ (List.nodup_dedup _)]
  have h2 : ∀ c ∈ crimes, ((match c.name with
      | none => false
      | some s => (s ∈ (validNames features).dedup : Bool)) = true ↔
      isCounted features c = true) := by
    intro c _
    unfold isCounted
    cases c.name with
    | none => simp
    | some s => simp [List.mem_dedup]
  rw [List.countP_congr h2]
  rw [List.length_eq_countP_add_countP (p := fun c => isCounted features c) crimes]
  congr 1
  apply List.countP_congr
  intro c _
  simp

/-- C9: a crime record whose region property is absent or the empty string
(falsy in JS) never increments any count: removing it from the input leaves
the count map unchanged, whatever entries exist. -/
theorem processCrimeCounts_ignores_falsy (features : List Feature)
    (pre post : List Crime) (c : Crime) (h : c.name = none ∨ c.name = some "") :
    processCrimeCounts features (pre ++ c :: post) =
      processCrimeCounts features (pre ++ post) := by
  unfold processCrimeCounts
  rw [List.foldl_append, List.foldl_append, List.foldl_cons]
  have hstep : countStep (pre.foldl countStep (initCounts features)) c =
      pre.foldl countStep (initCounts features) := by
    simp only [countStep]
    rw [if_neg]
    intro hcon
    rw [Bool.and_eq_true] at hcon
    rcases h with h | h <;> rw [h] at hcon
    · exact absurd hcon.1 (by simp [truthy])
    · exact absurd hcon.1 (by simp [truthy])
  rw [hstep]

/-- Witness for C9: dropping a crime with an empty-string region property from
a concrete input leaves the counts unchanged. -/
theorem processCrimeCounts_ignores_falsy_witness :
    processCrimeCounts [⟨some "A"⟩] ([⟨some "A"⟩] ++ (⟨some ""⟩ : Crime) :: [⟨none⟩]) =
      processCrimeCounts [⟨some "A"⟩] ([⟨some "A"⟩] ++ [⟨none⟩]) :=
  processCrimeCounts_ignores_falsy [⟨some "A"⟩] [⟨some "A"⟩] [⟨none⟩] ⟨some ""⟩
    (Or.inr rfl)

/-- C5 counterexample: a computed centroid coordinate that is `Infinity` (not
`NaN`) passes the `isNaN` filter of script.js line 224, so the centroid set
can contain a centroid with a non-finite coordinate — the claim that every
output centroid has finite coordinates fails. -/
theorem calculateCentroids_keeps_infinite_coordinate :
    ∃ c ∈ calculateCentroids [⟨some "A"⟩] (fun _ => (JSNum.posInf, JSNum.fin 0)),
      c.coords.1.isFinite = false := by
  decide

/-- C5 (amended): the centroid extractor yields the valid polygons' centroids
in input order, excluding exactly those whose computed centroid has a `NaN`
coordinate; every centroid in the output has non-`NaN` (though not necessarily
finite) coordinates. -/
theorem calculateCentroids_filters_nan (features : List Feature)
    (centroidOf : Feature → JSNum × JSNum) :
    (∀ c ∈ calculateCentroids features centroidOf,
        c.coords.1.isNaN = false ∧ c.coords.2.isNaN = false) ∧
    (calculateCentroids features centroidOf).Sublist
      ((validNeighborhoods features).map (fun f => ⟨f.name, centroidOf f⟩)) ∧
    (∀ f ∈ validNeighborhoods features, (centroidOf f).1.isNaN = false →
      (centroidOf f).2.isNaN = false →
      (⟨f.name, centroidOf f⟩ : CentroidEntry) ∈
        calculateCentroids features centroidOf) := by
  refine ⟨?_, List.filter_sublist _, ?_⟩
  · intro c hc
    obtain ⟨-, h2⟩ := List.mem_filter.mp hc
    rw [Bool.and_eq_true] at h2
    exact ⟨by simpa using h2.1, by simpa using h2.2⟩
  · intro f hf h1 h2
    unfold calculateCentroids
    rw [List.mem_filter]
    refine ⟨List.mem_map_of_mem _ hf, ?_⟩
    simp [h1, h2]

/-- Witness for C5 at a concrete `NaN`-free centroid computation. -/
theorem calculateCentroids_filters_nan_witness :
    (⟨some "A", (JSNum.fin 3, JSNum.fin 4)⟩ : CentroidEntry) ∈
      calculateCentroids [⟨some "A"⟩] (fun _ => (JSNum.fin 3, JSNum.fin 4)) :=
  (calculateCentroids_filters_nan [⟨some "A"⟩] _).2.2 ⟨some "A"⟩ (by decide) rfl rfl

/-- C4 (spec-modelled; the join itself lives in `preprocess_data.py`, absent
from the sources): the spatial join assigns, per point record, the identifier
of the first valid polygon in input order whose containment test accepts the
projected point, and assigns nothing exactly when no valid polygon contains
the projected point — any assigned identifier belongs to a polygon that
contains the point. -/
theorem assignRegion_first_containing {β π ξ : Type}
    (contains : Polygon β → ξ → Bool) (proj : π → ξ) (polys : List (Polygon β))
    (p : π) :
    (assignRegion contains proj polys p = none ↔
      ∀ pl ∈ validPolygons polys, contains pl (proj p) = false) ∧
    (∀ s, assignRegion contains proj polys p = some s →
      ∃ l1 pl l2, validPolygons polys = l1 ++ pl :: l2 ∧ pl.id = s ∧
        contains pl (proj p) = true ∧ ∀ q ∈ l1, contains q (proj p) = false) := by
  constructor
  · unfold assignRegion validPolygons
    rw [Option.map_eq_none', List.find?_eq_none]
    constructor
    · intro h pl hpl
      simpa using h pl hpl
    · intro h pl hpl
      simp [h pl hpl]
  · intro s hs
    unfold assignRegion at hs
    obtain ⟨pl, hfind, hid⟩ := Option.map_eq_some'.mp hs
    obtain ⟨l1, l2, heq, hpa, hl1⟩ := find?_eq_some_split hfind
    exact ⟨l1, pl, l2, heq, hid, hpa, fun q hq => hl1 q hq⟩

/-- Witness for C4: on a concrete run, the assigned identifier comes with the
first-containing-polygon decomposition. -/
theorem assignRegion_first_containing_witness :
    ∃ l1 pl l2, validPolygons [(⟨"", 0⟩ : Polygon Nat), ⟨"A", 1⟩] =
        l1 ++ pl :: l2 ∧ Polygon.id pl = "A" ∧
      (fun (_ : Polygon Nat) (_ : Nat) => true) pl ((fun n : Nat => n) 0) = true ∧
      ∀ q ∈ l1, (fun (_ : Polygon Nat) (_ : Nat) => true) q ((fun n : Nat => n) 0) = false :=
  (assignRegion_first_containing (fun _ _ => true) (fun n : Nat => n)
    [⟨"", 0⟩, ⟨"A", 1⟩] 0).2 "A" (by decide)

/-- C1 (failing input): with a single centroid and `k = 1`, the candidate list
is just the self entry (distance `Infinity`); the loop bound
`k < distances.length` still admits it, and the emitted edge list is exactly
the self-loop {A, A} — so the edge list is not self-loop-free for every
centroid set and positive `k`. -/
theorem calculateKNN_singleton_self_loop :
    calculateKNN (α := ℤ) [⟨"A", 0, 0⟩] 1 = [⟨0, 0⟩] := by decide

/-- C2 (failing input): `k = 5` requested with 3 valid centroids — each
centroid's selected neighbor list is the two other centroids PLUS ITSELF (the
`Infinity` self entry lies within the first `min(k, n) = 3` sorted
candidates), and self-loop edges are emitted; the builder does not degrade to
exactly "the other 2". -/
theorem calculateKNN_three_centroids_include_self :
    selOf (α := ℤ) [⟨"A", 0, 0⟩, ⟨"B", 1, 0⟩, ⟨"C", 10, 10⟩] 5 0 = [1, 2, 0] ∧
    selOf (α := ℤ) [⟨"A", 0, 0⟩, ⟨"B", 1, 0⟩, ⟨"C", 10, 10⟩] 5 1 = [0, 2, 1] ∧
    selOf (α := ℤ) [⟨"A", 0, 0⟩, ⟨"B", 1, 0⟩, ⟨"C", 10, 10⟩] 5 2 = [1, 0, 2] ∧
    calculateKNN (α := ℤ) [⟨"A", 0, 0⟩, ⟨"B", 1, 0⟩, ⟨"C", 10, 10⟩] 5 =
      [⟨0, 1⟩, ⟨0, 2⟩, ⟨0, 0⟩, ⟨1, 2⟩, ⟨1, 1⟩, ⟨2, 2⟩] := by decide

/-- C3 counterexample: with one centroid and `k = 1` the output contains the
unordered pair {A, A}, but A is not among A's nearest *other* centroids
(there are none), so the claimed equivalence fails as stated when the
centroid set has at most `k` members. -/
theorem knn_union_semantics_fails_small :
    ¬((∃ l ∈ calculateKNN (α := ℤ) [⟨"A", 0, 0⟩] 1, samePair l ⟨0, 0⟩) ↔
      ((0 < 1 ∧ 0 ∈ specNearestOthers (α := ℤ) [⟨"A", 0, 0⟩] 1 0) ∨
        (0 < 1 ∧ 0 ∈ specNearestOthers (α := ℤ) [⟨"A", 0, 0⟩] 1 0))) := by
  decide

/-- C3 (amended): provided the centroid set has at least `k + 1` members, the
edge list realizes union semantics: the unordered pair {a, b} occurs in the
output exactly when b is among a's k nearest other centroids or a is among
b's k nearest other centroids (exact ties resolved by input-order index). -/
theorem knn_union_semantics {cs : List (Centroid α)} {K a b : Nat}
    (hK : K + 1 ≤ cs.length) :
    (∃ l ∈ calculateKNN cs K, samePair l ⟨a, b⟩) ↔
      ((a < cs.length ∧ b ∈ specNearestOthers cs K a) ∨
        (b < cs.length ∧ a ∈ specNearestOthers cs K b)) := by
  constructor
  · rintro ⟨l, hl, hsp⟩
    obtain ⟨hlt, hsel⟩ := knn_sound hl
    rcases hsp with ⟨h1, h2⟩ | ⟨h1, h2⟩ <;> dsimp only at h1 h2
    · left
      have ha : a < cs.length := by rw [← h1]; exact hlt
      refine ⟨ha, ?_⟩
      rw [← selOf_eq_specNearestOthers ha hK, ← h1, ← h2]
      exact hsel
    · right
      have hb : b < cs.length := by rw [← h1]; exact hlt
      refine ⟨hb, ?_⟩
      rw [← selOf_eq_specNearestOthers hb hK, ← h1, ← h2]
      exact hsel
  · rintro (⟨ha, hb⟩ | ⟨hb, ha⟩)
    · have hb2 : b ∈ selOf cs K a := by
        rw [selOf_eq_specNearestOthers ha hK]; exact hb
      exact linkExists_iff.mp (knn_complete ha hb2)
    · have ha2 : a ∈ selOf cs K b := by
        rw [selOf_eq_specNearestOthers hb hK]; exact ha
      obtain ⟨l, hl, hsp⟩ := linkExists_iff.mp (knn_complete hb ha2)
      exact ⟨l, hl, samePair_swap hsp⟩

/-- Witness for C3 on a concrete two-centroid input with `k = 1`. -/
theorem knn_union_semantics_witness :
    (∃ l ∈ calculateKNN (α := ℤ) [⟨"A", 0, 0⟩, ⟨"B", 1, 0⟩] 1, samePair l ⟨0, 1⟩) ↔
      ((0 < ([⟨"A", 0, 0⟩, ⟨"B", 1, 0⟩] : List (Centroid ℤ)).length ∧
          1 ∈ specNearestOthers (α := ℤ) [⟨"A", 0, 0⟩, ⟨"B", 1, 0⟩] 1 0) ∨
        (1 < ([⟨"A", 0, 0⟩, ⟨"B", 1, 0⟩] : List (Centroid ℤ)).length ∧
          0 ∈ specNearestOthers (α := ℤ) [⟨"A", 0, 0⟩, ⟨"B", 1, 0⟩] 1 1)) :=
  knn_union_semantics (by decide)

/-- C8: the candidate list sorted by the code is a permutation of the distance
entries arranged strictly ascending in the (distance, input-order index)
lexicographic order: candidates are ordered by ascending planar Euclidean
distance (the monotone square root makes the squared-distance key order the
same, `sqrt_dist2_lt_iff`), and exact distance ties are broken by the
centroids' input-order index, making the selection and edge list functions of
the input alone — identical across runs. -/
theorem sortedDistances_ascending (cs : List (Centroid α)) (c1 : Centroid α)
    (i : Nat) :
    (sortedDistances cs c1 i).Pairwise entryLt ∧
      List.Perm (sortedDistances cs c1 i) (distEntries cs c1 i) :=
  ⟨sortedDistances_pairwise_lt cs c1 i, List.perm_insertionSort _ _⟩

/-- C10: with at least two centroids and `k ≥ 1`, every centroid index occurs
as an endpoint of some emitted edge: its first selected neighbor either
creates a new edge with it as source or matches an already-present edge with
that pair of endpoints. -/
theorem calculateKNN_no_isolated_centroid {cs : List (Centroid α)} {K i : Nat}
    (hn : 2 ≤ cs.length) (hK : 1 ≤ K) (hi : i < cs.length) :
    ∃ l ∈ calculateKNN cs K, l.source = i ∨ l.target = i := by
  have hcs : cs ≠ [] := by
    intro h
    rw [h] at hi
    cases hi
  obtain ⟨j, hj⟩ := List.exists_mem_of_ne_nil _ (selOf_ne_nil hK hcs)
  obtain ⟨l, hl, hsp⟩ := linkExists_iff.mp (knn_complete hi hj)
  rcases hsp with ⟨h1, -⟩ | ⟨-, h2⟩
  · exact ⟨l, hl, Or.inl h1⟩
  · exact ⟨l, hl, Or.inr h2⟩

/-- Witness for C10 on a concrete two-centroid input with `k = 1`. -/
theorem calculateKNN_no_isolated_centroid_witness :
    ∃ l ∈ calculateKNN (α := ℤ) [⟨"A", 0, 0⟩, ⟨"B", 1, 0⟩] 1,
      l.source = 0 ∨ l.target = 0 :=
  calculateKNN_no_isolated_centroid (by decide) (by decide) (by decide)

end CrimeViz
